import Mathlib

/-!
Verification of the indentation-driven tree reconstruction code of this
repository (final.py, excel_reader.py, excel_style.py, excel.py).

Strings are modelled through their character lists.  Python string
operations used by the source (`str.strip`, `re.match(r'^\s*(>+)')`,
`re.sub(r'^\s*>+\s*', '', t)`, `t.split(':')[-1]`, `str.lower`) are
translated into explicit list functions below.
-/

namespace GenAI

/-- The whitespace test used by Python `strip` / `\s` (restricted to the
whitespace characters that can occur in the spreadsheet cells). -/
def isWS (c : Char) : Bool :=
  c == ' ' || c == '\t' || c == '\n' || c == '\r'

/-- Left trim: drop leading whitespace. -/
def trimL (l : List Char) : List Char := l.dropWhile isWS

/-- Right trim: drop trailing whitespace. -/
def trimR (l : List Char) : List Char := (l.reverse.dropWhile isWS).reverse

/-- Python `str.strip()`. -/
def trimC (l : List Char) : List Char := trimR (trimL l)

/-- Python `t.split(':')[-1]` guarded by `if ':' in t` — the substring
after the last colon when a colon is present, the whole string otherwise. -/
def afterLastColon (l : List Char) : List Char :=
  if (':' : Char) ∈ l then (l.reverse.takeWhile (fun c => !(c == ':'))).reverse
  else l

/-- Python `re.sub(r'^\s*>+\s*', '', t)` generalised to a marker set:
if the string starts (after optional whitespace) with a run of marker
characters, remove the whitespace, the run and the whitespace after it;
otherwise (no match) return the string unchanged. -/
def subMarkers (markers : List Char) (l : List Char) : List Char :=
  match l.dropWhile isWS with
  | [] => l
  | c :: rest =>
    if c ∈ markers then (rest.dropWhile (fun x => decide (x ∈ markers))).dropWhile isWS
    else l

/-- Model of `count_level` (final.py lines 8-13), generalised over the marker set:
`0` for blank input, otherwise the length of the leading marker run after
optional whitespace (`re.match(r'^\s*(>+)', s)`). -/
def count_level_m (markers : List Char) (s : String) : Nat :=
  if trimC s.data = [] then 0
  else ((s.data.dropWhile isWS).takeWhile (fun c => decide (c ∈ markers))).length

/-- The `count_level` of final.py: marker set `{'>'}`. -/
def count_level (s : String) : Nat := count_level_m ['>'] s

/-- Model of `clean_name` (final.py lines 15-23), generalised over the marker set:
strip, remove the leading marker run, keep the text after the last `':'`,
strip again and lowercase. -/
def clean_name_m (markers : List Char) (s : String) : String :=
  ⟨(trimC (afterLastColon (subMarkers markers (trimC s.data)))).map Char.toLower⟩

/-- The `clean_name` of final.py: marker set `{'>'}`. -/
def clean_name (s : String) : String := clean_name_m ['>'] s

/-- Model of `clean_type` (final.py lines 25-32): `none` for blank input, otherwise
the text after the last `':'`, stripped and lowercased. -/
def clean_type (s : String) : Option String :=
  if trimC s.data = [] then none
  else some ⟨(trimC (afterLastColon (trimC s.data))).map Char.toLower⟩

/-- Model of `extract_after_colon` (excel_reader.py lines 12-20): like `clean_name`
but without lowercasing. -/
def extract_after_colon (s : String) : String :=
  ⟨trimC (afterLastColon (subMarkers ['>'] (trimC s.data)))⟩

/-- An input row: the pair (raw element name, raw type) read from the two
designated sheet columns. -/
abbrev Row := String × String

/-- A node of the reconstructed tree.  The Python structures are dynamic
(`str` for a leaf, single-key `dict` mapping a key to a child list for a
group); this is the corresponding tagged variant. -/
inductive Node where
  | leaf : String → Node
  | group : String → List Node → Node

/-- Python truthiness of `clean_type(t) or name` (final.py line 53):
`None` and the empty string are falsy, so they fall back to `name`. -/
def pyOr (o : Option String) (d : String) : String :=
  match o with
  | none => d
  | some s => if s = "" then d else s

/-- The loop/recursion body of `build_structure` (final.py lines 36-63),
with an explicit fuel argument standing for the bound on the remaining
scan length.  Each loop iteration and each nested call consumes one unit
of fuel; along any call chain the scan index strictly increases, so fuel
`rows.length + 1 - start` never runs out (see `buildF_stable`). -/
def buildF (rows : List Row) : Nat → Nat → Nat → List Node × Nat
  | 0, i, _ => ([], i)
  | f+1, i, level =>
    if h : i < rows.length then
      let r := rows.get ⟨i, h⟩
      let lvl := count_level r.1
      if lvl < level then ([], i)
      else if lvl = level then
        let name := clean_name r.1
        let nextLvl : Int :=
          if h2 : i + 1 < rows.length then (count_level (rows.get ⟨i + 1, h2⟩).1 : Int) else -1
        if (level : Int) < nextLvl then
          let key := pyOr (clean_type r.2) name
          let res := buildF rows f (i + 1) (level + 1)
          let rest := buildF rows f res.2 level
          (Node.group key res.1 :: rest.1, rest.2)
        else
          let rest := buildF rows f (i + 1) level
          (Node.leaf name :: rest.1, rest.2)
      else
        buildF rows f (i + 1) level
    else ([], i)

/-- The `build_structure(rows, start, level)` of final.py. -/
def buildStructure (rows : List Row) (start level : Nat) : List Node × Nat :=
  buildF rows (rows.length + 1 - start) start level

/-- The body of `parse_children` (excel_reader.py lines 34-55), fuelled the
same way as `buildF`.  Children live at depth `baseLevel + 1`; a deeper row
without a parent at the expected level is skipped (`idx += 1`). -/
def parseChildrenF (rows : List Row) : Nat → Nat → Nat → List Node × Nat
  | 0, idx, _ => ([], idx)
  | f+1, idx, baseLevel =>
    if h : idx < rows.length then
      let lvl := count_level (rows.get ⟨idx, h⟩).1
      if lvl ≤ baseLevel then ([], idx)
      else if lvl = baseLevel + 1 then
        let name := extract_after_colon (rows.get ⟨idx, h⟩).1
        let nextDeeper : Bool :=
          if h2 : idx + 1 < rows.length then decide (lvl < count_level (rows.get ⟨idx + 1, h2⟩).1)
          else false
        if nextDeeper then
          let res := parseChildrenF rows f (idx + 1) lvl
          let rest := parseChildrenF rows f res.2 baseLevel
          (Node.group name res.1 :: rest.1, rest.2)
        else
          let rest := parseChildrenF rows f (idx + 1) baseLevel
          (Node.leaf name :: rest.1, rest.2)
      else
        parseChildrenF rows f (idx + 1) baseLevel
    else ([], idx)

/-- The `parse_children(start_idx, base_level)` of excel_reader.py. -/
def parse_children (rows : List Row) (startIdx baseLevel : Nat) : List Node × Nat :=
  parseChildrenF rows (rows.length + 1 - startIdx) startIdx baseLevel

/-- The row filter of `process_excel` (final.py line 88):
`rows = [(a, b) for a, b in rows if str(a).strip()]`. -/
def keep_row (r : Row) : Bool := !(trimC r.1.data).isEmpty

/-- The parse pipeline of `process_excel` (final.py lines 88-90): drop rows
with a blank element name, then run `build_structure` from the top. -/
def process_rows (rows : List Row) : List Node × Nat :=
  buildStructure (rows.filter keep_row) 0 0

/-- Model of `extract_leaves` (final.py lines 99-113) on a list of nodes: the full
pre-order sequence of leaf strings.  The Python function appends every
leaf string it visits (dict values and list items in order) with no
membership test. -/
def extractLeavesL : List Node → List String
  | [] => []
  | .leaf s :: rest => s :: extractLeavesL rest
  | .group _ cs :: rest => extractLeavesL cs ++ extractLeavesL rest

/-- Model of `collect_leaves_from_items` (excel_style.py lines 69-76, and the
equivalent `collect_leaves_from_list` of excel_reader.py lines 79-87): the
accumulator `acc` is the list of leaves collected so far; a leaf is
appended only if it is not already present. -/
def collectItems : List String → List Node → List String
  | acc, [] => acc
  | acc, .leaf s :: rest => collectItems (if s ∈ acc then acc else acc ++ [s]) rest
  | acc, .group _ cs :: rest => collectItems (collectItems acc cs) rest

/-- First-occurrence deduplication of a flat sequence: fold it into the
accumulator, appending each element not already present. -/
def firstOccur : List String → List String → List String
  | acc, [] => acc
  | acc, s :: rest => firstOccur (if s ∈ acc then acc else acc ++ [s]) rest

/-- A top-level entry of excel_style.py `parse_rows`: either a standalone
leaf or a `('mapping', key, children)` triple. -/
inductive TopEntry where
  | leaf : String → TopEntry
  | mapping : String → List Node → TopEntry

mutual

/-- Model of `format_item_compact` (excel_style.py lines 125-134): a leaf renders as
its bare string; a group renders as "\x7bkey:[children]\x7d" with children
comma-joined. -/
def formatItem : Node → String
  | .leaf s => s
  | .group k v => "\x7b" ++ k ++ ":[" ++ formatItems v ++ "]" ++ "\x7d"

/-- Model of `",".join(format_item_compact(x) for x in v)`. -/
def formatItems : List Node → String
  | [] => ""
  | [x] => formatItem x
  | x :: xs => formatItem x ++ "," ++ formatItems xs

end

/-- One entry of the `parts` list in `build_compact_text` (excel_style.py
lines 136-147).  For a mapping the code computes
`"\x7b" + f"\x7bkey\x7d:\x7b\x7b" + children_str + "\x7d" + "\x7d\x7d"`, which renders the
key, an opening brace, the children, then three closing braces. -/
def compactPart : TopEntry → String
  | .leaf n => n
  | .mapping key children =>
    "\x7b" ++ (key ++ ":\x7b") ++ formatItems children ++ "\x7d" ++ "\x7d\x7d"

/-- Model of `build_compact_text(top_entries)` (excel_style.py lines 136-147): the
comma-joined parts wrapped in one more brace pair. -/
def build_compact_text (entries : List TopEntry) : String :=
  "\x7b" ++ String.intercalate "," (entries.map compactPart) ++ "\x7d"

/-! ### Helper lemmas on `takeWhile`, `dropWhile` and trimming -/

theorem takeWhile_append_left {α : Type} (p : α → Bool) :
    ∀ (a b : List α), (∃ x ∈ a, p x = false) → (a ++ b).takeWhile p = a.takeWhile p := by
  intro a
  induction a with
  | nil =>
    intro b h
    obtain ⟨x, hx, _⟩ := h
    cases hx
  | cons c cs ih =>
    intro b h
    by_cases hc : p c = true
    · rw [List.cons_append, List.takeWhile_cons, List.takeWhile_cons, if_pos hc, if_pos hc]
      congr 1
      apply ih
      obtain ⟨x, hx, hpx⟩ := h
      rcases List.mem_cons.mp hx with rfl | hxs
      · rw [hc] at hpx; cases hpx
      · exact ⟨x, hxs, hpx⟩
    · rw [List.cons_append, List.takeWhile_cons, List.takeWhile_cons, if_neg hc, if_neg hc]

theorem takeWhile_append_all {α : Type} (p : α → Bool) :
    ∀ (a b : List α), (∀ x ∈ a, p x = true) → (a ++ b).takeWhile p = a ++ b.takeWhile p := by
  intro a
  induction a with
  | nil => intro b _; rfl
  | cons c cs ih =>
    intro b h
    have hc : p c = true := h c (List.mem_cons_self c cs)
    rw [List.cons_append, List.takeWhile_cons, if_pos hc, List.cons_append]
    congr 1
    exact ih b (fun x hx => h x (List.mem_cons_of_mem c hx))

theorem takeWhile_nil_of_forall {α : Type} (p : α → Bool) (w : List α)
    (h : ∀ x ∈ w, p x = false) : w.takeWhile p = [] := by
  cases w with
  | nil => rfl
  | cons c cs =>
    rw [List.takeWhile_cons, if_neg]
    simp [h c (List.mem_cons_self c cs)]

/-- Every list is its right-trim followed by a whitespace suffix. -/
theorem trimR_decomp (l : List Char) :
    ∃ w, l = trimR l ++ w ∧ ∀ c ∈ w, isWS c = true := by
  refine ⟨(l.reverse.takeWhile isWS).reverse, ?_, ?_⟩
  · conv_lhs => rw [← List.reverse_reverse l, ← List.takeWhile_append_dropWhile isWS l.reverse]
    rw [List.reverse_append]
    rfl
  · intro c hc
    rw [List.mem_reverse] at hc
    exact List.mem_takeWhile_imp hc

theorem dropWhile_idem {α : Type} (p : α → Bool) (l : List α) :
    (l.dropWhile p).dropWhile p = l.dropWhile p := by
  have h := List.head?_dropWhile_not p l
  cases hd : l.dropWhile p with
  | nil => rfl
  | cons c cs =>
    rw [hd] at h
    simp only [List.head?_cons] at h
    rw [List.dropWhile_cons, if_neg (by simp [h])]

theorem head_not_ws_of_dropWhile_self {l : List Char} (hl : l.dropWhile isWS = l) :
    ∀ c cs, l = c :: cs → isWS c = false := by
  intro c cs hc
  subst hc
  rw [List.dropWhile_cons] at hl
  by_cases h : isWS c = true
  · rw [if_pos h] at hl
    have hle : (List.dropWhile isWS cs).length ≤ cs.length :=
      (List.dropWhile_sublist isWS).length_le
    have h2 := congrArg List.length hl
    simp only [List.length_cons] at h2
    omega
  · simpa using h

/-- A fully trimmed list has no leading whitespace. -/
theorem trimL_trimC (l : List Char) : trimL (trimC l) = trimC l := by
  obtain ⟨w, hw, _⟩ := trimR_decomp (trimL l)
  cases hc : trimR (trimL l) with
  | nil =>
    show trimL (trimR (trimL l)) = trimR (trimL l)
    rw [hc]
    rfl
  | cons c cs =>
    have hself : (trimL l).dropWhile isWS = trimL l := dropWhile_idem isWS l
    have hL : trimL l = c :: (cs ++ w) := by rw [hw, hc]; rfl
    have hcws : isWS c = false := head_not_ws_of_dropWhile_self hself c (cs ++ w) hL
    show trimL (trimR (trimL l)) = trimR (trimL l)
    rw [hc]
    unfold trimL
    rw [List.dropWhile_cons, if_neg (by simp [hcws])]

theorem trimL_append_ws (p v : List Char) (h : ∀ c ∈ p, isWS c = true) :
    trimL (p ++ v) = trimL v := by
  unfold trimL
  rw [List.dropWhile_append, List.dropWhile_eq_nil_iff.mpr h]
  rfl

theorem trimC_append_ws (p v : List Char) (h : ∀ c ∈ p, isWS c = true) :
    trimC (p ++ v) = trimC v := by
  unfold trimC
  rw [trimL_append_ws p v h]

/-- Dropping an all-whitespace run in front of the input does not change the
trimmed after-last-colon extraction. -/
theorem afterLastColon_ws_pre (p v : List Char) (h : ∀ c ∈ p, isWS c = true) :
    trimC (afterLastColon (p ++ v)) = trimC (afterLastColon v) := by
  have hpc : (':' : Char) ∉ p := by
    intro hc
    exact absurd (h ':' hc) (by decide)
  by_cases hv : (':' : Char) ∈ v
  · have hu : (':' : Char) ∈ p ++ v := List.mem_append_right _ hv
    unfold afterLastColon
    rw [if_pos hu, if_pos hv]
    suffices hs : (p ++ v).reverse.takeWhile (fun c => !(c == ':'))
        = v.reverse.takeWhile (fun c => !(c == ':')) by rw [hs]
    rw [List.reverse_append]
    apply takeWhile_append_left
    exact ⟨':', List.mem_reverse.mpr hv, by simp⟩
  · have hpu : (':' : Char) ∉ p ++ v := by
      intro hc
      rcases List.mem_append.mp hc with h1 | h2
      · exact hpc h1
      · exact hv h2
    unfold afterLastColon
    rw [if_neg hpu, if_neg hv]
    exact trimC_append_ws p v h

theorem afterLastColon_dropWS (u : List Char) :
    trimC (afterLastColon (u.dropWhile isWS)) = trimC (afterLastColon u) := by
  conv_rhs => rw [← List.takeWhile_append_dropWhile isWS u]
  exact (afterLastColon_ws_pre _ _ (fun c hc => List.mem_takeWhile_imp hc)).symm

/-- Right-trimming does not change a leading run of non-whitespace
characters. -/
theorem takeWhile_trimR (pm : Char → Bool) (hp : ∀ c, pm c = true → isWS c = false)
    (u : List Char) : (trimR u).takeWhile pm = u.takeWhile pm := by
  obtain ⟨w, hw, hws⟩ := trimR_decomp u
  have hwf : ∀ x ∈ w, pm x = false := by
    intro x hx
    cases hpm : pm x with
    | false => rfl
    | true =>
      have h1 := hws x hx
      rw [hp x hpm] at h1
      cases h1
  by_cases hall : ∀ x ∈ trimR u, pm x = true
  · conv_rhs => rw [hw]
    rw [takeWhile_append_all _ _ _ hall, List.takeWhile_eq_self_iff.mpr hall]
    rw [takeWhile_nil_of_forall _ _ hwf, List.append_nil]
  · push_neg at hall
    obtain ⟨x, hx, hpx⟩ := hall
    conv_rhs => rw [hw]
    rw [takeWhile_append_left _ _ _ ⟨x, hx, by simpa using hpx⟩]

/-! ### The Depth Classifier contract (spec section 4.1) -/

/-- The spec's description of `canonicalName`: trim whitespace, strip the
leading marker run, keep the substring after the last namespace separator
when one is present, trim and lowercase the result. -/
def canonicalNameSpec (markers : List Char) (s : String) : String :=
  ⟨(trimC (afterLastColon
      ((trimC s.data).dropWhile (fun c => decide (c ∈ markers))))).map Char.toLower⟩

/-- The spec's description of `depth`: zero for an empty/blank string or a
string without a leading marker run, otherwise the count of consecutive
marker characters at the start of the trimmed string. -/
def depthSpec (markers : List Char) (s : String) : Nat :=
  if trimC s.data = [] then 0
  else if (trimC s.data).takeWhile (fun c => decide (c ∈ markers)) = [] then 0
  else ((trimC s.data).takeWhile (fun c => decide (c ∈ markers))).length

/-- C5: for every input string, the name-canonicalization function trims
whitespace, strips the leading marker run, keeps only the substring after
the last namespace separator when one is present, and returns the trimmed,
lowercased result; for empty input it returns the empty string.
(`clean_name_m` models final.py `clean_name`; `canonicalNameSpec` follows
the spec's wording; the marker set is a parameter, final.py instantiates
it with the single arrow character.) -/
theorem c5_canonical_name :
    (∀ (markers : List Char) (s : String),
      clean_name_m markers s = canonicalNameSpec markers s) ∧
    clean_name "" = "" := by
  constructor
  · intro markers s
    unfold clean_name_m canonicalNameSpec
    suffices h : trimC (afterLastColon (subMarkers markers (trimC s.data)))
        = trimC (afterLastColon
            ((trimC s.data).dropWhile (fun c => decide (c ∈ markers)))) by rw [h]
    have htl : (trimC s.data).dropWhile isWS = trimC s.data := trimL_trimC s.data
    unfold subMarkers
    rw [htl]
    cases hc : trimC s.data with
    | nil => rfl
    | cons c rest =>
      dsimp only
      by_cases hm : c ∈ markers
      · rw [if_pos hm, List.dropWhile_cons, if_pos (by simpa using hm)]
        exact afterLastColon_dropWS (rest.dropWhile (fun x => decide (x ∈ markers)))
      · rw [if_neg hm, List.dropWhile_cons, if_neg (by simpa using hm)]
  · rfl

/-- C6: for every input string, the depth function returns 0 when the
string is empty/blank or has no leading marker run, and otherwise returns
the count of consecutive marker characters from the configured set at the
start of the trimmed string.  (`count_level_m` models `count_level`;
final.py configures the marker set as the single arrow character, the last
variant of excel_style.py configures it as arrow-or-slash; the hypothesis
says markers are not whitespace.) -/
theorem c6_depth : ∀ (markers : List Char) (s : String),
    (∀ c ∈ markers, isWS c = false) →
    count_level_m markers s = depthSpec markers s := by
  intro markers s hm
  unfold count_level_m depthSpec
  by_cases hb : trimC s.data = []
  · rw [if_pos hb, if_pos hb]
  · rw [if_neg hb, if_neg hb]
    have hkey : (trimC s.data).takeWhile (fun c => decide (c ∈ markers))
        = (s.data.dropWhile isWS).takeWhile (fun c => decide (c ∈ markers)) := by
      show (trimR (trimL s.data)).takeWhile _ = _
      rw [takeWhile_trimR _ (fun c hc => hm c (by simpa using hc))]
      rfl
    rw [hkey]
    cases hx : (s.data.dropWhile isWS).takeWhile (fun c => decide (c ∈ markers)) with
    | nil => rw [if_pos rfl]; rfl
    | cons y ys => rw [if_neg (by simp)]

/-- C6 witness: the default arrow-or-slash marker set is whitespace-free
and the theorem evaluates on a concrete string. -/
theorem c6_depth_witness :
    (∀ c ∈ (['>', '/'] : List Char), isWS c = false) ∧
    count_level_m ['>', '/'] "  />x " = depthSpec ['>', '/'] "  />x " :=
  ⟨by decide, c6_depth ['>', '/'] "  />x " (by decide)⟩

/-! ### Scan-index bounds and fuel stability of the Tree Builder -/

/-- The scan index never moves backwards. -/
theorem buildF_le (rows : List Row) :
    ∀ (f i level : Nat), i ≤ (buildF rows f i level).2 := by
  intro f
  induction f with
  | zero => intro i level; exact Nat.le_refl i
  | succ f ih =>
    intro i level
    simp only [buildF]
    repeat' split
    all_goals first
      | exact Nat.le_refl i
      | exact Nat.le_trans (Nat.le_succ i)
          (Nat.le_trans (ih (i + 1) (level + 1)) (ih (buildF rows f (i + 1) (level + 1)).2 level))
      | exact Nat.le_trans (Nat.le_succ i) (ih (i + 1) level)

/-- The scan index is bounded by the input length (or the start index when
that already lies beyond the input). -/
theorem buildF_le_max (rows : List Row) :
    ∀ (f i level : Nat), (buildF rows f i level).2 ≤ max i rows.length := by
  intro f
  induction f with
  | zero => intro i level; exact Nat.le_max_left i _
  | succ f ih =>
    intro i level
    simp only [buildF]
    repeat' split
    all_goals first
      | exact Nat.le_max_left i _
      | (have h1 := ih (i + 1) (level + 1)
         have h2 := ih (buildF rows f (i + 1) (level + 1)).2 level
         exact Nat.le_trans h2 (by omega))
      | (have h3 := ih (i + 1) level
         exact Nat.le_trans h3 (by omega))

/-- Any two sufficiently large fuels compute the same result: the loop
completes within `rows.length - i` steps. -/
theorem buildF_irrel (rows : List Row) : ∀ (k f g i level : Nat),
    rows.length - i ≤ k → rows.length - i < f → rows.length - i < g →
    buildF rows f i level = buildF rows g i level := by
  intro k
  induction k with
  | zero =>
    intro f g i level hk hf hg
    obtain ⟨f', rfl⟩ : ∃ f', f = f' + 1 := ⟨f - 1, by omega⟩
    obtain ⟨g', rfl⟩ : ∃ g', g = g' + 1 := ⟨g - 1, by omega⟩
    have hni : ¬ i < rows.length := by omega
    simp only [buildF, dif_neg hni]
  | succ k ih =>
    intro f g i level hk hf hg
    obtain ⟨f', rfl⟩ : ∃ f', f = f' + 1 := ⟨f - 1, by omega⟩
    obtain ⟨g', rfl⟩ : ∃ g', g = g' + 1 := ⟨g - 1, by omega⟩
    by_cases hni : i < rows.length
    · simp only [buildF, dif_pos hni]
      split
      · rfl
      · split
        · have e1 : buildF rows f' (i + 1) (level + 1) = buildF rows g' (i + 1) (level + 1) :=
            ih f' g' (i + 1) (level + 1) (by omega) (by omega) (by omega)
          have hle : i + 1 ≤ (buildF rows g' (i + 1) (level + 1)).2 :=
            buildF_le rows g' (i + 1) (level + 1)
          have e2 : buildF rows f' (buildF rows g' (i + 1) (level + 1)).2 level
              = buildF rows g' (buildF rows g' (i + 1) (level + 1)).2 level :=
            ih f' g' _ level (by omega) (by omega) (by omega)
          have e3 : buildF rows f' (i + 1) level = buildF rows g' (i + 1) level :=
            ih f' g' (i + 1) level (by omega) (by omega) (by omega)
          rw [e1, e2, e3]
        · exact ih f' g' (i + 1) level (by omega) (by omega) (by omega)
    · simp only [buildF, dif_neg hni]

/-- Any fuel above `rows.length - start` computes `buildStructure`. -/
theorem buildF_stable (rows : List Row) : ∀ (f start level : Nat),
    rows.length - start < f →
    buildF rows f start level = buildStructure rows start level := by
  intro f start level hf
  unfold buildStructure
  by_cases hs : start ≤ rows.length
  · exact buildF_irrel rows (rows.length - start) f (rows.length + 1 - start) start level
      (Nat.le_refl _) hf (by omega)
  · obtain ⟨f', rfl⟩ : ∃ f', f = f' + 1 := ⟨f - 1, by omega⟩
    have h0 : rows.length + 1 - start = 0 := by omega
    rw [h0]
    have hni : ¬ start < rows.length := by omega
    simp only [buildF, dif_neg hni]

/-- C9: the Tree Builder terminates on every input row sequence, start
index and base depth: the scan index only increases, for a start index
inside the input the returned next index is bounded by the input length,
and the fuelled loop is stable (any fuel above the remaining scan length
yields the same result, so the computation completes in at most
`rows.length - start` forward steps). -/
theorem c9_builder_bounds : ∀ (rows : List Row) (start level : Nat),
    start ≤ (buildStructure rows start level).2 ∧
    (start ≤ rows.length → (buildStructure rows start level).2 ≤ rows.length) ∧
    (∀ f, rows.length - start < f →
      buildF rows f start level = buildStructure rows start level) := by
  intro rows start level
  refine ⟨buildF_le rows _ start level, fun hs => ?_,
    fun f hf => buildF_stable rows f start level hf⟩
  have h := buildF_le_max rows (rows.length + 1 - start) start level
  unfold buildStructure
  omega

/-- C9 witness: the bounds evaluated on a concrete two-row input. -/
theorem c9_builder_bounds_witness :
    0 ≤ (buildStructure [("a", ""), (">b", "t")] 0 0).2 ∧
    (buildStructure [("a", ""), (">b", "t")] 0 0).2 ≤ 2 ∧
    buildF [("a", ""), (">b", "t")] 5 0 0 = buildStructure [("a", ""), (">b", "t")] 0 0 := by
  obtain ⟨h1, h2, h3⟩ := c9_builder_bounds [("a", ""), (">b", "t")] 0 0
  exact ⟨h1, h2 (by decide), h3 5 (by decide)⟩

/-- The Python expression `clean_type(t) or name` selects the canonical
type when it is non-empty and falls back to the element name. -/
theorem pyOr_eq (o : Option String) (d : String) :
    pyOr o d = if o.getD "" = "" then d else o.getD "" := by
  cases o with
  | none => simp [pyOr]
  | some s => by_cases hs : s = "" <;> simp [pyOr, hs]

/-- C2: whenever the builder stands on a row of its own level whose
successor row is strictly deeper (the row starts a Group), the first node
it emits is a Group whose key is the canonical name of the type column
when that is non-empty, and otherwise the canonical name of the element
column; no error path exists. -/
theorem c2_group_key (rows : List Row) (i level : Nat) (h : i < rows.length)
    (h2 : i + 1 < rows.length)
    (hl : count_level (rows.get ⟨i, h⟩).1 = level)
    (hd : level < count_level (rows.get ⟨i + 1, h2⟩).1) :
    ∃ children rest j,
      buildStructure rows i level =
        (Node.group
          (if (clean_type (rows.get ⟨i, h⟩).2).getD "" = ""
            then clean_name (rows.get ⟨i, h⟩).1
            else (clean_type (rows.get ⟨i, h⟩).2).getD "") children :: rest, j) := by
  obtain ⟨f, hf⟩ : ∃ f, rows.length + 1 - i = f + 1 := ⟨rows.length - i, by omega⟩
  unfold buildStructure
  rw [hf]
  simp only [buildF, dif_pos h, dif_pos h2, hl, lt_self_iff_false, if_false,
    eq_self_iff_true, if_true]
  have hdi : (level : Int) < (count_level (rows.get ⟨i + 1, h2⟩).1 : Int) := by
    exact_mod_cast hd
  rw [if_pos hdi, ← pyOr_eq]
  exact ⟨_, _, _, rfl⟩

/-- C2 witness: a concrete group-starting row with a non-blank type. -/
theorem c2_group_key_witness :
    ∃ children rest j,
      buildStructure [("a", "T"), (">b", "x")] 0 0 =
        (Node.group
          (if (clean_type "T").getD "" = "" then clean_name "a"
            else (clean_type "T").getD "") children :: rest, j) :=
  c2_group_key [("a", "T"), (">b", "x")] 0 0 (by decide) (by decide) (by decide) (by decide)

/-- C3 counterexample: on the single-row input whose only row sits at
depth 1, `build_structure` invoked at level 0 and start 0 does not return
a next index equal to the start index — the orphan row is consumed. -/
theorem c3_counterexample : (buildStructure [(">child", "t")] 0 0).2 ≠ 0 := by
  decide

/-- C3 amended: on the single-row input whose only row sits at depth 1,
`build_structure` invoked at level 0 and start 0 returns empty children
and next index `start + 1 = 1`: the orphan row is skipped (consumed
without producing any node), not left for an ancestor. -/
theorem c3_amended : buildStructure [(">child", "t")] 0 0 = ([], 1) := rfl

/-- C4: whenever `parse_children` stands on a row whose depth exceeds
`baseLevel + 1` (malformed/skipped indentation), it skips exactly that
single row — the parse continues at the next index with the same base
level, producing no node for the row and raising no error. -/
theorem c4_malformed_skip (rows : List Row) (i b : Nat) (h : i < rows.length)
    (hd : b + 1 < count_level (rows.get ⟨i, h⟩).1) :
    parse_children rows i b = parse_children rows (i + 1) b := by
  unfold parse_children
  have hf : rows.length + 1 - i = (rows.length + 1 - (i + 1)) + 1 := by omega
  rw [hf]
  simp only [parseChildrenF, dif_pos h]
  rw [if_neg (by omega), if_neg (by omega)]

/-- C4 witness: a depth-2 row under base level 0 is skipped. -/
theorem c4_malformed_skip_witness :
    parse_children [(">>x", "t")] 0 0 = parse_children [(">>x", "t")] 1 0 :=
  c4_malformed_skip [(">>x", "t")] 0 0 (by decide) (by decide)

/-- C7: a row with an empty or blank element column is dropped silently by
the parse pipeline of final.py (`process_excel` filters such rows before
`build_structure` runs): inserting a blank row anywhere in the input
leaves the parse result unchanged, so no node is produced for it and no
error is raised. -/
theorem c7_blank_row_skipped : ∀ (r1 r2 : List Row) (b : Row),
    trimC b.1.data = [] →
    process_rows (r1 ++ b :: r2) = process_rows (r1 ++ r2) := by
  intro r1 r2 b hb
  unfold process_rows
  have hkb : keep_row b = false := by
    unfold keep_row
    rw [hb]
    rfl
  rw [List.filter_append, List.filter_append, List.filter_cons, hkb]
  simp

/-- C7 witness: a blank row between two rows disappears from the parse. -/
theorem c7_blank_row_skipped_witness :
    process_rows [("a", "x"), ("  ", "y")] = process_rows [("a", "x")] :=
  c7_blank_row_skipped [("a", "x")] [] ("  ", "y") (by decide)

/-! ### Leaf collection -/

theorem firstOccur_append (a b : List String) :
    ∀ acc, firstOccur acc (a ++ b) = firstOccur (firstOccur acc a) b := by
  induction a with
  | nil => intro acc; rfl
  | cons x xs ih =>
    intro acc
    simp only [List.cons_append, firstOccur]
    exact ih _

/-- The deduplicating collector equals first-occurrence filtering of the
full pre-order leaf walk. -/
theorem collectItems_eq_firstOccur : ∀ (acc : List String) (l : List Node),
    collectItems acc l = firstOccur acc (extractLeavesL l) := by
  intro acc l
  induction acc, l using collectItems.induct with
  | case1 acc => simp [collectItems, extractLeavesL, firstOccur]
  | case2 acc s rest ih =>
    simp only [dite_eq_ite] at ih
    simp only [collectItems, extractLeavesL, firstOccur]
    exact ih
  | case3 acc k cs rest ih1 ih2 =>
    rw [ih1] at ih2
    simp only [collectItems, extractLeavesL, firstOccur_append, ih1, ih2]

theorem firstOccur_nodup : ∀ (l acc : List String), acc.Nodup → (firstOccur acc l).Nodup := by
  intro l
  induction l with
  | nil => intro acc h; exact h
  | cons s rest ih =>
    intro acc h
    simp only [firstOccur]
    apply ih
    by_cases hs : s ∈ acc
    · rw [if_pos hs]; exact h
    · rw [if_neg hs]
      simp [List.nodup_append, h, hs]

/-- C1 counterexample: final.py `extract_leaves` does not deduplicate — on
a tree whose two groups both contain the leaf x, the identifier appears
twice in the output, not exactly once. -/
theorem c1_counterexample :
    (extractLeavesL [Node.group "a" [Node.leaf "x"], Node.group "b" [Node.leaf "x"]]).count "x"
      = 2 ∧
    ¬ (extractLeavesL [Node.group "a" [Node.leaf "x"], Node.group "b" [Node.leaf "x"]]).Nodup := by
  have h : extractLeavesL [Node.group "a" [Node.leaf "x"], Node.group "b" [Node.leaf "x"]]
      = ["x", "x"] := by
    simp [extractLeavesL]
  rw [h]
  exact ⟨by decide, by decide⟩

/-- C1 amended: final.py `extract_leaves` returns the full pre-order leaf
sequence with duplicates preserved, while the deduplicating collector of
excel_style.py / excel_reader.py returns the leaves in first-occurrence
pre-order with no duplicates, membership being tested against all leaves
collected so far: it equals first-occurrence filtering of the pre-order
walk, and its output from an empty accumulator has no duplicates. -/
theorem c1_amended :
    (∀ (acc : List String) (l : List Node),
      collectItems acc l = firstOccur acc (extractLeavesL l)) ∧
    (∀ l : List Node, (collectItems [] l).Nodup) := by
  refine ⟨collectItems_eq_firstOccur, fun l => ?_⟩
  rw [collectItems_eq_firstOccur]
  exact firstOccur_nodup (extractLeavesL l) [] List.nodup_nil

/-- C8 counterexample: the compact serializer of excel_style.py does not
render the one-group/two-leaf tree as the bracket text the spec states. -/
theorem c8_counterexample :
    build_compact_text [TopEntry.mapping "g" [Node.leaf "x", Node.leaf "y"]]
      ≠ "\x7bg:\x7bx,y\x7d\x7d" := by
  decide

/-- C8 amended: for the tree with exactly one Group g holding exactly the
leaves x and y, `build_compact_text` renders the string
"\x7b\x7bg:\x7bx,y\x7d\x7d\x7d\x7d": the deliberate outer wrap adds one
brace pair around the comma-joined parts, and the escaping slip in the
part template appends one extra unmatched closing brace. -/
theorem c8_amended :
    build_compact_text [TopEntry.mapping "g" [Node.leaf "x", Node.leaf "y"]]
      = "\x7b\x7bg:\x7bx,y\x7d\x7d\x7d\x7d" := by
  decide

end GenAI
